import Mathlib

/-!
Verification development for the next-middleware-toolkit routing core.

The TypeScript sources are embedded shallowly:
* JS strings are Lean `String`s; every JS string operation used by the code
  (`split('/')`, `slice`, `startsWith`, `endsWith`, `+`, `replace(/\/\*$/,'')`)
  is given an executable Lean counterpart working on `String.data`
  (a `List Char`), matching JS semantics for the ASCII inputs involved.
* `Record<string, string>` objects are association lists with
  last-write-wins `setKey` (assignment keeps the original key position,
  as JS objects do; only lookup matters for the proved statements).
* Possibly-throwing async functions become `Except String`-valued
  functions; `null`/`undefined` become `Option`.
* `Array.prototype.sort` with a consistent comparator (as in
  `findMatchingRoute`) is modelled as the standard stable insertion
  sort (`jsSortBy`): an element is placed after every earlier element
  `y` with `cmp y x <= 0` and before the first with `cmp y x > 0`,
  exactly the ES2019-stable behaviour. The legacy matcher's comparator
  is inconsistent (it answers `-1` for two same-group arguments in
  either order), so ECMAScript leaves that sort's result
  implementation-defined; for it the development models both the
  stable resolution (`sortPaths`) and the binary insertion sort
  Node/V8 executes on short arrays (`sortPathsV8`), which agree on
  group separation but disagree on the order within a group.
* The builder pipeline (`MiddlewareBuilder.build`) is a pure function
  threading the request context and accumulating a trace of events
  (hook invocations, caught hook errors, route resolution, rule runs),
  so that claims of the form "X still runs" / "Y is never invoked"
  are statable.
-/

/-! ## JS string primitives (src: standard library semantics used by utils/priority.ts etc.) -/

/-- JS `pre` is a prefix of `s`, at the character-list level. -/
def prefixOfChars : List Char → List Char → Bool
  | [], _ => true
  | _ :: _, [] => false
  | a :: as, b :: bs => a == b && prefixOfChars as bs

/-- JS `s.startsWith(p)`. -/
def jsStartsWith (s p : String) : Bool := prefixOfChars p.data s.data

/-- JS `s.endsWith(p)`. -/
def jsEndsWith (s p : String) : Bool := prefixOfChars p.data.reverse s.data.reverse

/-- JS `s.length` (ASCII inputs: code units = characters). -/
def jsLength (s : String) : Nat := s.data.length

/-- JS `s.slice(n)` for a non-negative index. -/
def jsSlice (s : String) (n : Nat) : String := ⟨s.data.drop n⟩

/-- JS `s.slice(0, -n)` (take all but the last `n` characters). -/
def jsTakeAllBut (s : String) (n : Nat) : String := ⟨s.data.take (s.data.length - n)⟩

/-- JS string concatenation `s + t`. -/
def jsConcat (s t : String) : String := ⟨s.data ++ t.data⟩

/-- JS `s.includes(c)` for a single-character needle. -/
def jsContainsChar (s : String) (c : Char) : Bool := s.data.contains c

/-- Auxiliary recursion for `jsSplit`: `acc` holds the current segment reversed. -/
def splitCharAux (c : Char) : List Char → List Char → List String
  | [], acc => [⟨acc.reverse⟩]
  | d :: ds, acc =>
    if d == c then ⟨acc.reverse⟩ :: splitCharAux c ds []
    else splitCharAux c ds (d :: acc)

/-- JS `s.split(c)` for a single-character separator: keeps empty segments,
`n` separators yield `n+1` parts, the empty string yields `[""]`. -/
def jsSplit (s : String) (c : Char) : List String := splitCharAux c s.data []

/-! ## JS objects as association lists -/

/-- JS object assignment `m[k] = v`: overwrite in place if the key exists
(keys are unique in a JS object, so overwriting the first occurrence is
exact), otherwise append (JS keeps insertion order of keys). -/
def setKey : List (String × String) → String → String → List (String × String)
  | [], k, v => [(k, v)]
  | kv :: t, k, v => if kv.1 == k then (k, v) :: t else kv :: setKey t k v

/-- JS object lookup `m[k]`, `none` for a missing key. -/
def lookupKey : List (String × String) → String → Option String
  | [], _ => none
  | kv :: t, k => if kv.1 == k then some kv.2 else lookupKey t k

/-- JS object spread `{...a, ...b}`. -/
def mergeMeta (a b : List (String × String)) : List (String × String) :=
  b.foldl (fun m kv => setKey m kv.1 kv.2) a

/-! ## JS `Array.prototype.sort` (stable, per comparator) -/

/-- Insert `x` after every accumulated element `y` with `cmp y x <= 0` and
before the first with `cmp y x > 0` (stable insertion step). -/
def jsInsert (cmp : α → α → Int) (x : α) : List α → List α
  | [] => [x]
  | y :: ys => if cmp y x > 0 then x :: y :: ys else y :: jsInsert cmp x ys

/-- Stable sort by a JS comparator. -/
def jsSortBy (cmp : α → α → Int) (l : List α) : List α :=
  l.foldl (fun acc x => jsInsert cmp x acc) []

/-! ## src/utils/priority.ts -/

/-- `replace(/\/\*$/, '')`: strip one trailing `/*` if present. -/
def stripTrailingWildcard (s : String) : String :=
  if jsEndsWith s "/*" then jsTakeAllBut s 2 else s

/-- `calculatePriority(path, isExact)` from src/utils/priority.ts. -/
def calculatePriority (path : String) (isExact : Bool) : Int :=
  if isExact then ((jsSplit path '/').length : Int) * 10
  else
    1000 + (100 -
      (((jsSplit (stripTrailingWildcard path) '/').filter (fun s => !(s == ""))).length : Int))

/-- The spec's `segmentCount` for exact patterns: `path.split('/').length`. -/
def segmentCount (p : String) : Nat := (jsSplit p '/').length

/-- The spec's segment count for prefix patterns: non-empty segments after
stripping one trailing `/*`. -/
def prefixSegmentCount (p : String) : Nat :=
  ((jsSplit (stripTrailingWildcard p) '/').filter (fun s => !(s == ""))).length

/-- `matchRoute(path, pattern, isExact, prefix?)` from src/utils/priority.ts.
A stored empty-string prefix is falsy in JS, hence falls back to the pattern
with a trailing `/*` stripped. -/
def matchRoute (path pattern : String) (isExact : Bool) (pfx : Option String) : Bool :=
  if isExact then path == pattern
  else
    let routePfx := match pfx with
      | some p => if p == "" then stripTrailingWildcard pattern else p
      | none => stripTrailingWildcard pattern
    path == routePfx || jsStartsWith path (jsConcat routePfx "/")

/-- A pattern segment of the form `[...]`. -/
def isBracketSeg (s : String) : Bool := jsStartsWith s "[" && jsEndsWith s "]"

/-- `part.slice(1, -1)`: the name inside a bracket segment. -/
def bracketInner (s : String) : String := ⟨(s.data.drop 1).dropLast⟩

/-- The `patternParts.forEach((part, index) => ...)` loop of `extractParams`:
bind each bracket segment to the path segment at the same index
(`pathParts[index] || ''`). -/
def bracketFold (pathParts : List String) : List String → Nat → List (String × String) → List (String × String)
  | [], _, ps => ps
  | part :: parts, i, ps =>
    let ps' := if isBracketSeg part then
        setKey ps (bracketInner part) (pathParts.getD i "")
      else ps
    bracketFold pathParts parts (i + 1) ps'

/-- `extractParams(path, pattern, isExact, prefix?)` from src/utils/priority.ts. -/
def extractParams (path pattern : String) (isExact : Bool) (pfx : Option String) :
    List (String × String) :=
  let params : List (String × String) := []
  let params :=
    match pfx with
    | some p =>
      if !isExact && !(p == "") then
        let remaining := jsSlice path (jsLength p)
        if jsStartsWith remaining "/" then setKey params "*" (jsSlice remaining 1)
        else if remaining == "" then setKey params "*" ""
        else params
      else params
    | none => params
  if jsContainsChar pattern '[' && jsContainsChar pattern ']' then
    bracketFold (jsSplit path '/') (jsSplit pattern '/') 0 params
  else params

/-! ## Core data model (src/types/core.ts, src/responses/response-helpers.ts) -/

/-- The host response vocabulary: `Responses.next()`, `Responses.redirect(url, base)`,
and any other response a rule may construct (abstracted by a tag). -/
inductive MWResponse where
  | passThrough : MWResponse
  | redirectTo (url : String) (base : String) : MWResponse
  | custom (tag : String) : MWResponse
deriving DecidableEq

/-- A request: its full URL and `new URL(req.url).pathname`. -/
structure MWRequest where
  url : String
  pathname : String
deriving DecidableEq

/-- `MiddlewareContext<T>`. -/
structure MWContext (T : Type) where
  data : Option T
  path : String
  params : List (String × String)
  metadata : List (String × String)

/-- `MiddlewareRule<T>`: may suspend and throw; returns a nullable response. -/
abbrev MWRule (T : Type) := MWContext T → Except String (Option MWResponse)

/-- `RouteDefinition<T>`. -/
structure RouteDef (T : Type) where
  pattern : String
  rules : List (MWRule T)
  priority : Int
  isExact : Bool
  pfx : Option String := none
  metadata : List (String × String) := []

/-- A plugin: a name and five optional lifecycle hooks. Hooks other than
`onError` are modelled as observers that may throw. -/
structure MWPlugin (T : Type) where
  name : String
  beforeRequest : Option (MWContext T → Except String Unit) := none
  beforeRule : Option (MWContext T → Except String Unit) := none
  afterRule : Option (MWContext T → Option MWResponse → Except String Unit) := none
  afterRequest : Option (MWContext T → MWResponse → Except String Unit) := none
  onError : Option (MWContext T → String → Except String (Option MWResponse)) := none

/-- The state a `MiddlewareBuilder` holds when `build()` is called. -/
structure BuilderState (T : Type) where
  routes : List (RouteDef T)
  authPaths : List String
  fetchUser : MWRequest → Except String (Option T)
  plugins : List (MWPlugin T)
  defaultMetadata : List (String × String) := []

/-! ## Route registration (src/core/middleware-builder.ts, exact/prefix/route) -/

/-- The route pushed by `exact(path, ...rules)`. -/
def exactRouteDef (dm : List (String × String)) (path : String) (rules : List (MWRule T)) :
    RouteDef T :=
  { pattern := path, rules := rules, priority := calculatePriority path true,
    isExact := true, pfx := none, metadata := dm }

/-- The route pushed by the builder's prefix-registration method
(`prefix(pathPrefix, ...rules)`): the stored prefix is the pattern with one
trailing `/` stripped (a trailing `/*` is NOT stripped here). -/
def prefixRouteDef (dm : List (String × String)) (pathPfx : String) (rules : List (MWRule T)) :
    RouteDef T :=
  { pattern := pathPfx, rules := rules, priority := calculatePriority pathPfx false,
    isExact := false,
    pfx := some (if jsEndsWith pathPfx "/" then jsTakeAllBut pathPfx 1 else pathPfx),
    metadata := dm }

/-- The route pushed by `route(path, {rules, isExact?, metadata?})`:
`isExact` defaults to `true`; a prefix is stored only when `isExact` is
`false` AND the path ends with `/`, and is `undefined` otherwise. -/
def customRouteDef (dm : List (String × String)) (path : String) (rules : List (MWRule T))
    (isExactOpt : Option Bool) (md : List (String × String)) : RouteDef T :=
  let isExact := isExactOpt.getD true
  { pattern := path, rules := rules, priority := calculatePriority path isExact,
    isExact := isExact,
    pfx := if !isExact && jsEndsWith path "/" then some (jsTakeAllBut path 1) else none,
    metadata := mergeMeta dm md }

/-- `findMatchingRoute`: sort ascending by priority (stable), return the first
route whose pattern matches. -/
def findMatchingRoute (routes : List (RouteDef T)) (path : String) : Option (RouteDef T) :=
  (jsSortBy (fun a b => a.priority - b.priority) routes).find?
    (fun r => matchRoute path r.pattern r.isExact r.pfx)

/-! ## Plugin pipeline and the built handler (src/core/middleware-builder.ts) -/

/-- Trace events emitted by the modelled pipeline. `hookError` records the
`console.error` emitted when a hook throws and is caught. -/
inductive MWEvent where
  | hookRun (plugin hook : String) : MWEvent
  | hookError (plugin hook : String) : MWEvent
  | resolveDone (pattern : Option String) : MWEvent
  | fetchRun : MWEvent
  | ruleRun (index : Nat) : MWEvent
deriving DecidableEq

/-- The trace one plugin contributes to `executePluginHook`: the hook runs if
present, and a thrown error is caught and logged with the plugin's name and
the hook name. -/
def hookSegment (hookName : String) (call : MWPlugin T → Option (Except String Unit))
    (p : MWPlugin T) : List MWEvent :=
  match call p with
  | none => []
  | some (Except.ok _) => [.hookRun p.name hookName]
  | some (Except.error _) => [.hookRun p.name hookName, .hookError p.name hookName]

/-- `executePluginHook`: run the hook of every plugin in order, catching and
logging each plugin's failure; never throws. -/
def executePluginHook (plugins : List (MWPlugin T)) (hookName : String)
    (call : MWPlugin T → Option (Except String Unit)) : List MWEvent :=
  (plugins.map (hookSegment hookName call)).flatten

/-- `handlePluginErrors`: first plugin whose `onError` returns a non-null
result wins; a plugin throwing from `onError` is caught and skipped. -/
def handlePluginErrors (plugins : List (MWPlugin T)) (ctx : MWContext T) (e : String) :
    Option MWResponse :=
  match plugins with
  | [] => none
  | p :: ps =>
    match p.onError with
    | none => handlePluginErrors ps ctx e
    | some f =>
      match f ctx e with
      | .ok (some r) => some r
      | _ => handlePluginErrors ps ctx e

/-- `authPaths.some(...)` in the catch block: exact match, or for entries
ending in `/*`, `path.startsWith(entry.slice(0, -2))`. -/
def isAuthPathCheck (authPaths : List String) (path : String) : Bool :=
  authPaths.any (fun ap =>
    if jsEndsWith ap "/*" then jsStartsWith path (jsTakeAllBut ap 2)
    else path == ap)

/-- The catch block of the built handler: plugins' `onError` first, then the
default policy (pass-through for auth paths, else redirect to `/sign-in`). -/
def catchResult (b : BuilderState T) (ctx : MWContext T) (e : String) (req : MWRequest) :
    MWResponse :=
  match handlePluginErrors b.plugins ctx e with
  | some r => r
  | none =>
    if isAuthPathCheck b.authPaths req.pathname then .passThrough
    else .redirectTo "/sign-in" req.url

/-- The context as first created for a request. -/
def ctxInitial (b : BuilderState T) (req : MWRequest) : MWContext T :=
  { data := none, path := req.pathname, params := [], metadata := b.defaultMetadata }

/-- The context once a route has matched: params extracted, metadata merged,
and `data` the (possibly null) fetched user. -/
def ctxAtRules (b : BuilderState T) (req : MWRequest) (route : RouteDef T) (d : Option T) :
    MWContext T :=
  { data := d, path := req.pathname,
    params := extractParams req.pathname route.pattern route.isExact route.pfx,
    metadata := mergeMeta b.defaultMetadata route.metadata }

/-- `beforeRequest` hook phase. -/
def ephBeforeRequest (plugins : List (MWPlugin T)) (ctx : MWContext T) : List MWEvent :=
  executePluginHook plugins "beforeRequest" (fun p => p.beforeRequest.map (fun f => f ctx))

/-- `afterRequest` hook phase. -/
def ephAfterRequest (plugins : List (MWPlugin T)) (ctx : MWContext T) (result : MWResponse) :
    List MWEvent :=
  executePluginHook plugins "afterRequest" (fun p => p.afterRequest.map (fun f => f ctx result))

/-- The `for (const rule of matchingRoute.rules)` loop: `beforeRule` hooks,
the rule itself (index recorded in the trace), `afterRule` hooks, then return
on the first non-null result; a rule throwing propagates. -/
def runRules (plugins : List (MWPlugin T)) (ctx : MWContext T) :
    List (MWRule T) → Nat → List MWEvent × Except String (Option MWResponse)
  | [], _ => ([], .ok none)
  | r :: rs, i =>
    let log1 := executePluginHook plugins "beforeRule" (fun p => p.beforeRule.map (fun f => f ctx))
    match r ctx with
    | .error e => (log1 ++ [.ruleRun i], .error e)
    | .ok result =>
      let log2 := executePluginHook plugins "afterRule"
        (fun p => p.afterRule.map (fun f => f ctx result))
      match result with
      | some resp => (log1 ++ [.ruleRun i] ++ log2, .ok (some resp))
      | none =>
        let rest := runRules plugins ctx rs (i + 1)
        (log1 ++ [.ruleRun i] ++ log2 ++ rest.1, rest.2)

/-- Everything the built handler does after the `beforeRequest` phase:
route resolution, param extraction, user fetch, the rule loop, the
`afterRequest` phase, and the catch-block fallback. -/
def handleAfterBR (b : BuilderState T) (req : MWRequest) : List MWEvent × MWResponse :=
  match findMatchingRoute b.routes req.pathname with
  | none =>
    (.resolveDone none :: ephAfterRequest b.plugins (ctxInitial b req) .passThrough,
     .passThrough)
  | some route =>
    match b.fetchUser req with
    | .error e =>
      ([.resolveDone (some route.pattern), .fetchRun],
       catchResult b (ctxAtRules b req route none) e req)
    | .ok d =>
      let ctx2 := ctxAtRules b req route d
      let rr := runRules b.plugins ctx2 route.rules 0
      match rr.2 with
      | .ok (some resp) =>
        (.resolveDone (some route.pattern) :: .fetchRun :: (rr.1 ++ ephAfterRequest b.plugins ctx2 resp),
         resp)
      | .ok none =>
        (.resolveDone (some route.pattern) :: .fetchRun ::
           (rr.1 ++ ephAfterRequest b.plugins ctx2 .passThrough),
         .passThrough)
      | .error e =>
        (.resolveDone (some route.pattern) :: .fetchRun :: rr.1,
         catchResult b ctx2 e req)

/-- The handler returned by `build()`: `beforeRequest` hooks, then the rest;
always produces a response. -/
def buildHandler (b : BuilderState T) (req : MWRequest) : List MWEvent × MWResponse :=
  (ephBeforeRequest b.plugins (ctxInitial b req) ++ (handleAfterBR b req).1,
   (handleAfterBR b req).2)

/-! ## Legacy matcher (src/legacy/middleware.ts) -/

/-- `isWildcard(path)`: ends in `/*`. -/
def legacyIsWildcard (p : String) : Bool := jsEndsWith p "/*"

/-- The legacy sort comparator: `1` when `a` is a wildcard and `b` is not,
`-1` in every other case. -/
def legacyCmp (a b : String) : Int :=
  if legacyIsWildcard a && !(legacyIsWildcard b) then 1 else -1

/-- `sortPaths` under the stable-insertion resolution of
`Array.prototype.sort`. `legacyCmp` is an inconsistent comparator, so
ECMAScript leaves the actual order implementation-defined; `sortPathsV8`
below is the resolution Node/V8 executes. -/
def sortPaths (paths : List String) : List String := jsSortBy legacyCmp paths

/-- The binary-search insertion point computed by V8's
`BinaryInsertionSort` (the algorithm Node/V8 applies to short arrays such
as the legacy matcher's matched-pattern lists): while `left < right`,
probe `mid = (left + right) / 2` with `compare(pivot, a[mid])` and shrink
to `[left, mid)` on a negative answer, to `[mid + 1, right)` otherwise.
Structural recursion on fuel; `right - left` units always suffice. -/
def v8InsertionPointAux (cmp : α → α → Int) (pivot : α) (arr : List α) :
    Nat → Nat → Nat → Nat
  | 0, left, _ => left
  | fuel + 1, left, right =>
    if left < right then
      if cmp pivot (arr.getD ((left + right) / 2) pivot) < 0 then
        v8InsertionPointAux cmp pivot arr fuel left ((left + right) / 2)
      else v8InsertionPointAux cmp pivot arr fuel ((left + right) / 2 + 1) right
    else left

/-- V8's binary-search insertion point for `pivot` within `arr[left..right)`. -/
def v8InsertionPoint (cmp : α → α → Int) (pivot : α) (arr : List α) (left right : Nat) : Nat :=
  v8InsertionPointAux cmp pivot arr (right - left) left right

/-- Insert `x` at position `p` of `l`. -/
def v8InsertAt (x : α) (l : List α) (p : Nat) : List α := l.take p ++ x :: l.drop p

/-- V8's binary insertion sort: each element is inserted at the
binary-search position within the already-processed prefix. This is the
deterministic resolution of `Array.prototype.sort` that Node/V8 (the
runtime of this Next.js package) actually executes on short arrays. -/
def v8SortShort (cmp : α → α → Int) (l : List α) : List α :=
  l.foldl (fun acc x => v8InsertAt x acc (v8InsertionPoint cmp x acc 0 acc.length)) []

/-- `sortPaths` as Node/V8 executes it on short arrays. -/
def sortPathsV8 (paths : List String) : List String := v8SortShort legacyCmp paths

/-- What one legacy rule does to the per-path mutable cells: whether it calls
`next()`, and the final target its `redirect(path, options?)` calls record
(`none` when it never calls `redirect`). -/
structure LegacyRuleEff where
  callsNext : Bool
  redirectTarget : Option String
deriving DecidableEq

/-- The outcome of the legacy `apply` for one matched path. -/
inductive LegacyOutcome where
  | passThrough : LegacyOutcome
  | redirectTo (target : String) : LegacyOutcome
deriving DecidableEq

/-- JS truthiness of the `redirectPath` cell (`undefined` and `''` are falsy). -/
def strTruthy : Option String → Bool
  | none => false
  | some s => !(s == "")

/-- The legacy rule loop: run each rule, break as soon as `redirectPath` is
truthy (the `nextCalled` check only `continue`s). Returns the final
`(nextCalled, redirectPath)` cells. -/
def runLegacyRules : List LegacyRuleEff → Bool → Option String → Bool × Option String
  | [], nextCalled, rPath => (nextCalled, rPath)
  | r :: rs, nextCalled, rPath =>
    let nextCalled' := nextCalled || r.callsNext
    let rPath' := match r.redirectTarget with
      | some t => some t
      | none => rPath
    if strTruthy rPath' then (nextCalled', rPath')
    else runLegacyRules rs nextCalled' rPath'

/-- The tail of the legacy `apply` loop body for one matched path: pass
through when nothing was decided, redirect when a truthy target differing
from the current pathname was recorded, else pass through. -/
def legacyApplyPath (rules : List LegacyRuleEff) (pathname : String) : LegacyOutcome :=
  let st := runLegacyRules rules false none
  if !st.1 && !(strTruthy st.2) then .passThrough
  else if strTruthy st.2 && !(st.2.getD "" == pathname) then .redirectTo (st.2.getD "")
  else .passThrough

/-! ## Concrete instances used by counterexamples and witnesses -/

/-- A pattern of exactly 100 non-empty `/`-separated segments (no leading
slash), hence split length 100 and 100 non-empty segments. -/
def hundredSegPattern : String := String.intercalate "/" (List.replicate 100 "a")

/-- A rule that always throws. -/
def throwingRule : MWRule Unit := fun _ => .error "boom"

/-- A builder with a single exact route `/api/x` whose one rule throws,
no plugins, and the given auth paths. -/
def apiErrorBuilder (auth : List String) : BuilderState Unit :=
  { routes := [exactRouteDef [] "/api/x" [throwingRule]],
    authPaths := auth,
    fetchUser := fun _ => .ok (some ()),
    plugins := [],
    defaultMetadata := [] }

/-- The request for `/api/x`. -/
def apiReq : MWRequest := { url := "http://localhost:3000/api/x", pathname := "/api/x" }

/-- A plugin consisting solely of a `beforeRequest` hook that throws. -/
def throwingBRPlugin (n e : String) : MWPlugin T :=
  { name := n, beforeRequest := some (fun _ => .error e) }

/-- Rules of the witness scenario for the short-circuit claim. -/
def shortCircuitRules : List (MWRule Unit) :=
  [fun _ => .ok none, fun _ => .ok (some (.custom "r2")), fun _ => .ok (some (.custom "r3"))]

/-- Builder of the witness scenario for the short-circuit claim. -/
def shortCircuitBuilder : BuilderState Unit :=
  { routes := [exactRouteDef [] "/a" shortCircuitRules], authPaths := [],
    fetchUser := fun _ => .ok none, plugins := [] }

/-- The request for `/a`. -/
def aReq : MWRequest := { url := "http://localhost:3000/a", pathname := "/a" }

/-- A builder whose user fetch always throws. -/
def fetchFailBuilder : BuilderState Unit :=
  { routes := [exactRouteDef [] "/x" []], authPaths := [],
    fetchUser := fun _ => .error "down", plugins := [] }

/-- The request for `/x`. -/
def xReq : MWRequest := { url := "http://localhost:3000/x", pathname := "/x" }

/-! # Helper lemmas -/

theorem prefixOfChars_iff : ∀ (q l : List Char), prefixOfChars q l = true ↔ ∃ t, l = q ++ t := by
  intro q
  induction q with
  | nil => intro l; simp [prefixOfChars]
  | cons a as ih =>
    intro l
    cases l with
    | nil => simp [prefixOfChars]
    | cons b bs =>
      simp only [prefixOfChars, Bool.and_eq_true, beq_iff_eq, ih bs]
      constructor
      · rintro ⟨rfl, t, rfl⟩
        exact ⟨t, rfl⟩
      · rintro ⟨t, ht⟩
        rw [List.cons_append] at ht
        obtain ⟨rfl, rfl⟩ : b = a ∧ bs = as ++ t := by
          constructor <;> [exact (List.cons.injEq ..).mp ht |>.1; exact (List.cons.injEq ..).mp ht |>.2]
        exact ⟨rfl, t, rfl⟩

theorem lookupKey_setKey_same (k v : String) :
    ∀ m : List (String × String), lookupKey (setKey m k v) k = some v := by
  intro m
  induction m with
  | nil => simp [setKey, lookupKey]
  | cons kv t ih =>
    by_cases hk : (kv.1 == k) = true
    · simp [setKey, lookupKey, hk]
    · simp [setKey, lookupKey, hk, ih]

theorem lookupKey_setKey_other (k k' v : String) (hne : ¬ k' = k) :
    ∀ m : List (String × String), lookupKey (setKey m k v) k' = lookupKey m k' := by
  have hne' : ¬ k = k' := fun h => hne h.symm
  have hkk : ((k : String) == k') = false := by simp [hne']
  intro m
  induction m with
  | nil => simp [setKey, lookupKey, hkk]
  | cons kv t ih =>
    by_cases hk : (kv.1 == k) = true
    · have hv : kv.1 = k := by simpa using hk
      have h2 : (kv.1 == k') = false := by simp [hv, hne']
      simp [setKey, lookupKey, hk, hkk, h2]
    · by_cases hk' : (kv.1 == k') = true
      · simp [setKey, lookupKey, hk, hk']
      · simp [setKey, lookupKey, hk, hk', ih]

theorem jsInsert_wildcard {x : String} (h : legacyIsWildcard x = true) :
    ∀ l, jsInsert legacyCmp x l = l ++ [x] := by
  intro l
  induction l with
  | nil => rfl
  | cons y ys ih => simp [jsInsert, legacyCmp, h, ih]

theorem jsInsert_nonwildcard {x : String} (hx : legacyIsWildcard x = false) :
    ∀ A B : List String, (∀ a ∈ A, legacyIsWildcard a = false) →
      (∀ b ∈ B, legacyIsWildcard b = true) →
      jsInsert legacyCmp x (A ++ B) = A ++ x :: B := by
  intro A
  induction A with
  | nil =>
    intro B _ hB
    cases B with
    | nil => rfl
    | cons b bs =>
      have hb : legacyIsWildcard b = true := hB b (by simp)
      simp [jsInsert, legacyCmp, hb, hx]
  | cons a as ih =>
    intro B hA hB
    have ha : legacyIsWildcard a = false := hA a (by simp)
    simp [jsInsert, legacyCmp, ha,
      ih B (fun a' ha' => hA a' (by simp [ha'])) hB]

theorem sortPaths_aux :
    ∀ (l A B : List String), (∀ a ∈ A, legacyIsWildcard a = false) →
      (∀ b ∈ B, legacyIsWildcard b = true) →
      l.foldl (fun acc x => jsInsert legacyCmp x acc) (A ++ B) =
        (A ++ l.filter (fun p => !(legacyIsWildcard p))) ++ (B ++ l.filter legacyIsWildcard) := by
  intro l
  induction l with
  | nil => intro A B _ _; simp
  | cons x xs ih =>
    intro A B hA hB
    rw [List.foldl_cons]
    by_cases hx : legacyIsWildcard x = true
    · have hins : jsInsert legacyCmp x (A ++ B) = A ++ (B ++ [x]) := by
        rw [jsInsert_wildcard hx (A ++ B), List.append_assoc]
      rw [hins, ih A (B ++ [x]) hA (by
        intro b hb
        rcases List.mem_append.mp hb with h | h
        · exact hB b h
        · simpa [List.mem_singleton.mp h] using hx)]
      simp [List.filter_cons, hx, List.append_assoc]
    · have hx' : legacyIsWildcard x = false := by simpa using hx
      have hins : jsInsert legacyCmp x (A ++ B) = (A ++ [x]) ++ B := by
        rw [jsInsert_nonwildcard hx' A B hA hB, List.append_assoc]
        simp
      rw [hins, ih (A ++ [x]) B (by
        intro a ha
        rcases List.mem_append.mp ha with h | h
        · exact hA a h
        · simpa [List.mem_singleton.mp h] using hx') hB]
      simp [List.filter_cons, hx', List.append_assoc]

theorem v8InsertionPointAux_all_lt {α : Type} {cmp : α → α → Int} {pivot : α}
    (h : ∀ y, cmp pivot y < 0) (arr : List α) :
    ∀ (fuel left right : Nat), v8InsertionPointAux cmp pivot arr fuel left right = left := by
  intro fuel
  induction fuel with
  | zero => intro left right; rfl
  | succ n ih =>
    intro left right
    simp only [v8InsertionPointAux]
    by_cases hlr : left < right
    · rw [if_pos hlr, if_pos (h _)]
      exact ih left _
    · rw [if_neg hlr]

theorem v8InsertionPointAux_separated {x : String} (hx : legacyIsWildcard x = true)
    (A B : List String) (hA : ∀ a ∈ A, legacyIsWildcard a = false)
    (hB : ∀ b ∈ B, legacyIsWildcard b = true) :
    ∀ (fuel left right : Nat), right - left ≤ fuel → left ≤ A.length →
      A.length ≤ right → right ≤ A.length + B.length →
      v8InsertionPointAux legacyCmp x (A ++ B) fuel left right = A.length := by
  intro fuel
  induction fuel with
  | zero =>
    intro left right h1 h2 h3 h4
    have hl : left = A.length := by omega
    simpa [v8InsertionPointAux] using hl
  | succ n ih =>
    intro left right h1 h2 h3 h4
    simp only [v8InsertionPointAux]
    by_cases hlr : left < right
    · rw [if_pos hlr]
      by_cases hmid : (left + right) / 2 < A.length
      · have helem : legacyIsWildcard ((A ++ B).getD ((left + right) / 2) x) = false := by
          rw [List.getD_append A B x _ hmid, List.getD_eq_getElem A x hmid]
          exact hA _ (List.getElem_mem hmid)
        have hcmp : ¬ legacyCmp x ((A ++ B).getD ((left + right) / 2) x) < 0 := by
          unfold legacyCmp
          rw [hx, helem]
          decide
        rw [if_neg hcmp]
        exact ih ((left + right) / 2 + 1) right (by omega) (by omega) h3 h4
      · have hge : A.length ≤ (left + right) / 2 := by omega
        have hblt : (left + right) / 2 - A.length < B.length := by omega
        have helem : legacyIsWildcard ((A ++ B).getD ((left + right) / 2) x) = true := by
          rw [List.getD_append_right A B x _ hge, List.getD_eq_getElem B x hblt]
          exact hB _ (List.getElem_mem hblt)
        have hcmp : legacyCmp x ((A ++ B).getD ((left + right) / 2) x) < 0 := by
          unfold legacyCmp
          rw [hx, helem]
          decide
        rw [if_pos hcmp]
        exact ih left ((left + right) / 2) (by omega) h2 (by omega) (by omega)
    · rw [if_neg hlr]
      omega

theorem v8InsertAt_zero (x : α) (l : List α) : v8InsertAt x l 0 = x :: l := by
  simp [v8InsertAt]

theorem v8InsertAt_boundary (x : α) (A B : List α) :
    v8InsertAt x (A ++ B) A.length = A ++ x :: B := by
  simp [v8InsertAt, List.take_left, List.drop_left]

theorem v8SortShort_aux :
    ∀ (l A B : List String), (∀ a ∈ A, legacyIsWildcard a = false) →
      (∀ b ∈ B, legacyIsWildcard b = true) →
      l.foldl (fun acc x => v8InsertAt x acc (v8InsertionPoint legacyCmp x acc 0 acc.length))
          (A ++ B) =
        ((l.filter (fun p => !(legacyIsWildcard p))).reverse ++ A) ++
          ((l.filter legacyIsWildcard).reverse ++ B) := by
  intro l
  induction l with
  | nil => intro A B _ _; simp
  | cons x xs ih =>
    intro A B hA hB
    rw [List.foldl_cons]
    by_cases hx : legacyIsWildcard x = true
    · have hpt : v8InsertionPoint legacyCmp x (A ++ B) 0 (A ++ B).length = A.length := by
        simp only [v8InsertionPoint, Nat.sub_zero]
        exact v8InsertionPointAux_separated hx A B hA hB (A ++ B).length 0 (A ++ B).length
          (by omega) (by omega) (by simp [List.length_append])
          (by simp [List.length_append])
      rw [hpt, v8InsertAt_boundary]
      rw [ih A (x :: B) hA (by
        intro b hb
        rcases List.mem_cons.mp hb with h | h
        · rw [h]; exact hx
        · exact hB b h)]
      simp [List.filter_cons, hx, List.append_assoc]
    · have hx' : legacyIsWildcard x = false := by simpa using hx
      have hall : ∀ y, legacyCmp x y < 0 := by
        intro y
        simp [legacyCmp, hx']
      have hpt : v8InsertionPoint legacyCmp x (A ++ B) 0 (A ++ B).length = 0 := by
        simp only [v8InsertionPoint, Nat.sub_zero]
        exact v8InsertionPointAux_all_lt hall (A ++ B) (A ++ B).length 0 (A ++ B).length
      rw [hpt, v8InsertAt_zero, ← List.cons_append]
      rw [ih (x :: A) B (by
        intro a ha
        rcases List.mem_cons.mp ha with h | h
        · rw [h]; exact hx'
        · exact hA a h) hB]
      simp [List.filter_cons, hx', List.append_assoc]

/-- C8 counterexample: under the binary insertion sort Node/V8 actually
executes for the legacy matcher's short pattern arrays, two non-wildcard
patterns come out in REVERSED registration order — so "registration order
preserved as the tie-break" fails on the program's runtime. (The legacy
comparator is inconsistent, so ECMAScript leaves the sort order
implementation-defined in the first place; the stable resolution
`sortPaths` happens to preserve registration order, V8's does not.) -/
theorem sortPaths_tiebreak_counterexample :
    legacyIsWildcard "/blog/latest" = false ∧
    legacyIsWildcard "/blog/archive" = false ∧
    sortPathsV8 ["/blog/latest", "/blog/archive"] = ["/blog/archive", "/blog/latest"] ∧
    ¬ sortPathsV8 ["/blog/latest", "/blog/archive"] = ["/blog/latest", "/blog/archive"] := by
  decide

/-- C8 amended: sorting places every wildcard pattern strictly after every
non-wildcard pattern regardless of registration order — this holds under
both modelled resolutions of the implementation-defined sort (the
comparator is inconsistent, so ECMAScript fixes no single order): the
stable resolution yields the non-wildcards then the wildcards each in
registration order, while Node/V8's binary insertion sort yields the
non-wildcards then the wildcards each in reversed registration order.
The within-group tie-break is therefore engine-dependent, not
registration order; `/blog/*` sorts after `/blog/latest` under both. -/
theorem sortPaths_wildcards_last :
    (∀ l : List String,
      sortPaths l = l.filter (fun p => !(legacyIsWildcard p)) ++ l.filter legacyIsWildcard) ∧
    (∀ l : List String,
      sortPathsV8 l = (l.filter (fun p => !(legacyIsWildcard p))).reverse ++
        (l.filter legacyIsWildcard).reverse) ∧
    sortPaths ["/blog/*", "/blog/latest"] = ["/blog/latest", "/blog/*"] ∧
    sortPaths ["/blog/latest", "/blog/*"] = ["/blog/latest", "/blog/*"] ∧
    sortPathsV8 ["/blog/*", "/blog/latest"] = ["/blog/latest", "/blog/*"] ∧
    sortPathsV8 ["/blog/latest", "/blog/*"] = ["/blog/latest", "/blog/*"] := by
  refine ⟨fun l => ?_, fun l => ?_, by decide, by decide, by decide, by decide⟩
  · have h := sortPaths_aux l [] [] (by simp) (by simp)
    simpa [sortPaths, jsSortBy] using h
  · have h := v8SortShort_aux l [] [] (by simp) (by simp)
    simpa [sortPathsV8, v8SortShort] using h

theorem runLegacyRules_no_redirect :
    ∀ (rules : List LegacyRuleEff) (nc : Bool) (rp : Option String),
      (∀ q ∈ rules, strTruthy q.redirectTarget = false) → strTruthy rp = false →
      strTruthy (runLegacyRules rules nc rp).2 = false := by
  intro rules
  induction rules with
  | nil => intro nc rp _ h; simpa [runLegacyRules] using h
  | cons r rs ih =>
    intro nc rp hq hrp
    have hr : strTruthy r.redirectTarget = false := hq r (by simp)
    have hrest : ∀ q ∈ rs, strTruthy q.redirectTarget = false :=
      fun q hqm => hq q (by simp [hqm])
    cases hrt : r.redirectTarget with
    | none =>
      simpa [runLegacyRules, hrt, hrp] using ih (nc || r.callsNext) rp hrest hrp
    | some t =>
      have ht : strTruthy (some t) = false := hrt ▸ hr
      simpa [runLegacyRules, hrt, ht] using ih (nc || r.callsNext) (some t) hrest ht

theorem runLegacyRules_first_redirect :
    ∀ (pre : List LegacyRuleEff) (r : LegacyRuleEff) (post : List LegacyRuleEff)
      (nc : Bool) (rp : Option String),
      (∀ q ∈ pre, strTruthy q.redirectTarget = false) → strTruthy rp = false →
      strTruthy r.redirectTarget = true →
      (runLegacyRules (pre ++ r :: post) nc rp).2 = r.redirectTarget := by
  intro pre
  induction pre with
  | nil =>
    intro r post nc rp _ hrp hr
    cases hrt : r.redirectTarget with
    | none => rw [hrt] at hr; simp [strTruthy] at hr
    | some t =>
      have ht : strTruthy (some t) = true := hrt ▸ hr
      simp [runLegacyRules, hrt, ht]
  | cons q qs ih =>
    intro r post nc rp hq hrp hr
    have h0 : strTruthy q.redirectTarget = false := hq q (by simp)
    have hrest : ∀ u ∈ qs, strTruthy u.redirectTarget = false :=
      fun u hu => hq u (by simp [hu])
    cases hqt : q.redirectTarget with
    | none =>
      simpa [runLegacyRules, hqt, hrp] using ih r post (nc || q.callsNext) rp hrest hrp hr
    | some t =>
      have ht : strTruthy (some t) = false := hqt ▸ h0
      simpa [runLegacyRules, hqt, ht] using ih r post (nc || q.callsNext) (some t) hrest ht hr

/-- C9 counterexample: with the first rule calling `next()` and the second
rule then calling `redirect("/login")`, the legacy loop honours the redirect
(the claim asserts the outcome would be a pass-through). -/
theorem legacy_redirect_after_next_honored :
    legacyApplyPath [⟨true, none⟩, ⟨false, some "/login"⟩] "/blog" =
      LegacyOutcome.redirectTo "/login" ∧
    legacyApplyPath [⟨true, none⟩, ⟨false, some "/login"⟩] "/blog" ≠
      LegacyOutcome.passThrough := by
  decide

/-- C9 amended: in the legacy rule loop, the first rule to record a truthy
redirect target wins, regardless of whether any earlier rule called
`next()`: the loop breaks there and the outcome is a redirect to that
target unless it equals the current pathname, in which case a
pass-through. If no rule records a truthy redirect target, the outcome is
a pass-through. -/
theorem legacy_first_redirect_wins :
    (∀ (pre : List LegacyRuleEff) (r : LegacyRuleEff) (post : List LegacyRuleEff)
        (pathname : String),
      (∀ q ∈ pre, strTruthy q.redirectTarget = false) →
      strTruthy r.redirectTarget = true →
      legacyApplyPath (pre ++ r :: post) pathname =
        (if r.redirectTarget.getD "" == pathname then LegacyOutcome.passThrough
         else LegacyOutcome.redirectTo (r.redirectTarget.getD ""))) ∧
    (∀ (rules : List LegacyRuleEff) (pathname : String),
      (∀ q ∈ rules, strTruthy q.redirectTarget = false) →
      legacyApplyPath rules pathname = LegacyOutcome.passThrough) := by
  constructor
  · intro pre r post pathname hpre hr
    have h2 := runLegacyRules_first_redirect pre r post false none hpre rfl hr
    simp only [legacyApplyPath, h2, hr]
    cases h : (r.redirectTarget.getD "" == pathname) <;>
      simp [h, hr]
  · intro rules pathname hq
    have h2 := runLegacyRules_no_redirect rules false none hq rfl
    simp only [legacyApplyPath]
    cases h1 : (runLegacyRules rules false none).1 <;> simp [h1, h2]

/-- Witness for the amended C9 theorem: the first truthy redirect wins even
after an earlier rule called `next()`. -/
theorem legacy_first_redirect_wins_witness :
    legacyApplyPath [⟨true, none⟩, ⟨true, some "/next-page"⟩] "/blog" =
      LegacyOutcome.redirectTo "/next-page" := by
  have h := legacy_first_redirect_wins.1 [⟨true, none⟩] ⟨true, some "/next-page"⟩ [] "/blog"
    (by decide) (by decide)
  simpa using h

set_option maxRecDepth 8000 in
/-- C1 counterexample: for a pattern of exactly 100 segments used both as an
exact pattern (split length 100) and as a prefix pattern (100 non-empty
segments), both priorities are 1000, so the exact priority is NOT strictly
less than the prefix priority even though both patterns are within the
100-segment ceiling. -/
theorem calculatePriority_strict_counterexample :
    segmentCount hundredSegPattern ≤ 100 ∧
    prefixSegmentCount hundredSegPattern ≤ 100 ∧
    calculatePriority hundredSegPattern true = 1000 ∧
    calculatePriority hundredSegPattern false = 1000 ∧
    ¬ (calculatePriority hundredSegPattern true < calculatePriority hundredSegPattern false) := by
  decide

/-- C1 amended: exact priority is `segmentCount * 10` and prefix priority is
`1000 + (100 - s)` exactly as claimed; for patterns of at most 100 segments
the exact priority is at most (not always strictly below) any prefix
priority, and it is strictly below whenever either side has fewer than 100
segments — equality occurs only in the boundary case of 100 segments on
both sides. -/
theorem calculatePriority_bounds :
    (∀ p, calculatePriority p true = (segmentCount p : Int) * 10) ∧
    (∀ p, calculatePriority p false = 1000 + (100 - (prefixSegmentCount p : Int))) ∧
    (∀ pe pp, segmentCount pe ≤ 100 → prefixSegmentCount pp ≤ 100 →
      calculatePriority pe true ≤ calculatePriority pp false ∧
      (segmentCount pe < 100 ∨ prefixSegmentCount pp < 100 →
        calculatePriority pe true < calculatePriority pp false)) := by
  refine ⟨fun p => rfl, fun p => rfl, fun pe pp he hp => ?_⟩
  have h1 : calculatePriority pe true = (segmentCount pe : Int) * 10 := rfl
  have h2 : calculatePriority pp false = 1000 + (100 - (prefixSegmentCount pp : Int)) := rfl
  rw [h1, h2]
  constructor
  · omega
  · intro h
    omega

/-- Witness for the amended C1 theorem at concrete patterns. -/
theorem calculatePriority_bounds_witness :
    calculatePriority "/a" true < calculatePriority "/admin" false :=
  (calculatePriority_bounds.2.2 "/a" "/admin" (by decide) (by decide)).2 (Or.inl (by decide))

/-- C2: with prefix routes registered for `/admin` and `/admin/users` in
either order, resolving `/admin/users/5` returns the `/admin/users` route
(the deeper prefix has the lower priority and is tried first). -/
theorem resolve_deeper_prefix_wins :
    (∀ (rs1 rs2 : List (MWRule Unit)),
      (findMatchingRoute [prefixRouteDef [] "/admin" rs1, prefixRouteDef [] "/admin/users" rs2]
          "/admin/users/5").map (fun r => r.pattern) = some "/admin/users" ∧
      (findMatchingRoute [prefixRouteDef [] "/admin/users" rs2, prefixRouteDef [] "/admin" rs1]
          "/admin/users/5").map (fun r => r.pattern) = some "/admin/users") ∧
    calculatePriority "/admin/users" false < calculatePriority "/admin" false :=
  ⟨fun rs1 rs2 => ⟨rfl, rfl⟩, by decide⟩

/-- C10: exact matching is pure string equality, so an exact route is only
resolvable when the path is the literal pattern string: in particular the
exact pattern `/users/[id]` never matches `/users/42`, even though
`extractParams` applied to that pair yields a binding for `id`. -/
theorem exact_bracket_pattern_never_matches :
    (∀ (path pattern : String) (pfo : Option String),
      matchRoute path pattern true pfo = true ↔ path = pattern) ∧
    (∀ (routes : List (RouteDef Unit)) (path : String) (r : RouteDef Unit),
      findMatchingRoute routes path = some r → r.isExact = true → path = r.pattern) ∧
    matchRoute "/users/42" "/users/[id]" true none = false ∧
    extractParams "/users/42" "/users/[id]" true none = [("id", "42")] := by
  have h1 : ∀ (path pattern : String) (pfo : Option String),
      matchRoute path pattern true pfo = true ↔ path = pattern := by
    intro path pattern pfo
    simp [matchRoute]
  refine ⟨h1, ?_, by decide, by decide⟩
  intro routes path r hfind hex
  simp only [findMatchingRoute] at hfind
  have hm := List.find?_some hfind
  rw [hex] at hm
  exact (h1 path r.pattern r.pfx).mp hm

/-- Witness for C10: the iff direction applied at a literal path. -/
theorem exact_bracket_pattern_never_matches_witness :
    matchRoute "/users/42" "/users/42" true none = true :=
  (exact_bracket_pattern_never_matches.1 "/users/42" "/users/42" none).mpr rfl

/-- C7 counterexample: for the pattern `/docs` (no trailing slash),
prefix-registration stores the prefix `/docs`, while
`route("/docs", {isExact: false})` stores no prefix at all; consequently
parameter extraction differs (`*` is bound only for the prefix-registered
route), and for a pattern ending in `/*` even matching differs, because the
stored prefix `/d/*` is used literally while the absent prefix falls back to
the pattern with `/*` stripped. -/
theorem route_vs_prefix_registration_differ :
    (prefixRouteDef [] "/docs" ([] : List (MWRule Unit))).pfx = some "/docs" ∧
    (customRouteDef [] "/docs" ([] : List (MWRule Unit)) (some false) []).pfx = none ∧
    extractParams "/docs/a" "/docs" false
        ((prefixRouteDef [] "/docs" ([] : List (MWRule Unit))).pfx) = [("*", "a")] ∧
    extractParams "/docs/a" "/docs" false
        ((customRouteDef [] "/docs" ([] : List (MWRule Unit)) (some false) []).pfx) = [] ∧
    matchRoute "/d/x" "/d/*" false
        ((prefixRouteDef [] "/d/*" ([] : List (MWRule Unit))).pfx) = false ∧
    matchRoute "/d/x" "/d/*" false
        ((customRouteDef [] "/d/*" ([] : List (MWRule Unit)) (some false) []).pfx) = true := by
  refine ⟨rfl, rfl, ?_, ?_, ?_, ?_⟩ <;> rfl

/-- C7 amended: `route`'s `isExact` defaults to true. With `isExact: false`,
`route` stores the trailing-slash-stripped prefix only when the pattern ends
in `/`, in which case it coincides with prefix-registration; when the
pattern does not end in `/`, `route` stores no prefix while
prefix-registration stores the pattern itself, and matching still coincides
provided the pattern is non-empty and does not end in `/*` (the
`matchRoute` fallback then reduces to the pattern itself). -/
theorem route_isExact_default_and_pfx :
    (∀ (T : Type) (dm : List (String × String)) (p : String) (rs : List (MWRule T))
        (md : List (String × String)),
      (customRouteDef dm p rs none md).isExact = true) ∧
    (∀ (T : Type) (dm : List (String × String)) (p : String) (rs : List (MWRule T))
        (md : List (String × String)), jsEndsWith p "/" = true →
      (customRouteDef dm p rs (some false) md).pfx = some (jsTakeAllBut p 1) ∧
      (prefixRouteDef dm p rs).pfx = some (jsTakeAllBut p 1)) ∧
    (∀ (T : Type) (dm : List (String × String)) (p : String) (rs : List (MWRule T))
        (md : List (String × String)), jsEndsWith p "/" = false →
      (customRouteDef dm p rs (some false) md).pfx = none ∧
      (prefixRouteDef dm p rs).pfx = some p) ∧
    (∀ (p path : String), (p == "") = false → jsEndsWith p "/*" = false →
      matchRoute path p false (some p) = matchRoute path p false none) := by
  refine ⟨fun T dm p rs md => rfl, ?_, ?_, ?_⟩
  · intro T dm p rs md h
    constructor <;> simp [customRouteDef, prefixRouteDef, h]
  · intro T dm p rs md h
    constructor <;> simp [customRouteDef, prefixRouteDef, h]
  · intro p path hne hw
    simp [matchRoute, stripTrailingWildcard, hne, hw]

/-- Witness for the amended C7 theorem at a concrete slash-terminated
pattern. -/
theorem route_isExact_default_and_pfx_witness :
    (customRouteDef [] "/admin/" ([] : List (MWRule Unit)) (some false) []).pfx = some "/admin" ∧
    (prefixRouteDef [] "/admin/" ([] : List (MWRule Unit))).pfx = some "/admin" := by
  have h := route_isExact_default_and_pfx.2.1 Unit [] "/admin/" [] [] (by decide)
  exact ⟨h.1.trans (by decide), h.2.trans (by decide)⟩

theorem bracketFold_no_writer (pathParts : List String) (k : String) :
    ∀ (parts : List String) (i : Nat) (ps : List (String × String)),
      (∀ t ∈ parts, isBracketSeg t = true → ¬ bracketInner t = k) →
      lookupKey (bracketFold pathParts parts i ps) k = lookupKey ps k := by
  intro parts
  induction parts with
  | nil => intro i ps _; rfl
  | cons part rest ih =>
    intro i ps h
    simp only [bracketFold]
    by_cases hb : isBracketSeg part = true
    · have hne : ¬ bracketInner part = k := h part (by simp) hb
      rw [if_pos hb, ih (i + 1) _ (fun t ht hbt => h t (by simp [ht]) hbt),
        lookupKey_setKey_other (bracketInner part) k _ (fun he => hne he.symm)]
    · rw [if_neg hb]
      exact ih (i + 1) ps (fun t ht hbt => h t (by simp [ht]) hbt)

theorem bracketFold_writer (pathParts : List String) :
    ∀ (pre : List String) (s : String) (post : List String) (i : Nat)
      (ps : List (String × String)),
      isBracketSeg s = true →
      (∀ t ∈ pre, isBracketSeg t = true → ¬ bracketInner t = bracketInner s) →
      (∀ t ∈ post, isBracketSeg t = true → ¬ bracketInner t = bracketInner s) →
      lookupKey (bracketFold pathParts (pre ++ s :: post) i ps) (bracketInner s) =
        some (pathParts.getD (i + pre.length) "") := by
  intro pre
  induction pre with
  | nil =>
    intro s post i ps hb _ hpost
    simp only [List.nil_append, bracketFold, hb, if_true, List.length_nil, Nat.add_zero]
    rw [bracketFold_no_writer pathParts (bracketInner s) post (i + 1) _ hpost]
    exact lookupKey_setKey_same (bracketInner s) (pathParts.getD i "") ps
  | cons t ts ih =>
    intro s post i ps hb hpre hpost
    simp only [List.cons_append, bracketFold]
    have h := ih s post (i + 1)
      (if isBracketSeg t then setKey ps (bracketInner t) (pathParts.getD i "") else ps)
      hb (fun u hu hbu => hpre u (by simp [hu]) hbu) hpost
    have harith : i + 1 + ts.length = i + (t :: ts).length := by simp; omega
    rw [harith] at h
    exact h

theorem string_beq_iff (s t : String) : (s == t) = true ↔ s = t := by
  constructor
  · intro h; exact eq_of_beq h
  · intro h; subst h; exact beq_self_eq_true s

/-- C3: bracket parameters bind positionally, with a missing path segment
binding to the empty string, independently of the match kind; and a matched
prefix route binds `*` to everything after the prefix's trailing slash
(the empty string when the path equals the prefix). The concrete instances
of the claim are included. -/
theorem extractParams_spec :
    (∀ (path pattern : String) (isE : Bool) (pfo : Option String)
        (pre : List String) (s : String) (post : List String),
      jsContainsChar pattern '[' = true → jsContainsChar pattern ']' = true →
      jsSplit pattern '/' = pre ++ s :: post →
      isBracketSeg s = true →
      (∀ t ∈ pre, isBracketSeg t = true → ¬ bracketInner t = bracketInner s) →
      (∀ t ∈ post, isBracketSeg t = true → ¬ bracketInner t = bracketInner s) →
      lookupKey (extractParams path pattern isE pfo) (bracketInner s) =
        some ((jsSplit path '/').getD pre.length "")) ∧
    (∀ (path pattern p : String),
      (p == "") = false →
      matchRoute path pattern false (some p) = true →
      (∀ t ∈ jsSplit pattern '/', isBracketSeg t = true → ¬ bracketInner t = "*") →
      lookupKey (extractParams path pattern false (some p)) "*" =
        some (if path == p then "" else jsSlice path (jsLength p + 1))) ∧
    extractParams "/users/42" "/users/[id]" true none = [("id", "42")] ∧
    extractParams "/docs/a/b" "/docs" false (some "/docs") = [("*", "a/b")] ∧
    extractParams "/docs" "/docs" false (some "/docs") = [("*", "")] := by
  refine ⟨?_, ?_, by decide, by decide, by decide⟩
  · intro path pattern isE pfo pre s post hc1 hc2 hsplit hb hpre hpost
    have hguard : (jsContainsChar pattern '[' && jsContainsChar pattern ']') = true := by
      rw [hc1, hc2]; rfl
    simp only [extractParams, hguard, if_true]
    rw [hsplit, bracketFold_writer (jsSplit path '/') pre s post 0 _ hb hpre hpost,
      Nat.zero_add]
  · intro path pattern p hp hm hstar
    have hm' : (path == p || jsStartsWith path (jsConcat p "/")) = true := by
      simpa [matchRoute, hp] using hm
    have key : ∀ v : String,
        (if jsStartsWith (jsSlice path (jsLength p)) "/" then
            setKey [] "*" (jsSlice (jsSlice path (jsLength p)) 1)
          else if (jsSlice path (jsLength p)) == "" then setKey [] "*" ""
          else []) = [("*", v)] →
        lookupKey (extractParams path pattern false (some p)) "*" = some v := by
      intro v hv
      simp only [extractParams, Bool.not_false, Bool.true_and, hp, if_true]
      cases hg : (jsContainsChar pattern '[' && jsContainsChar pattern ']') with
      | true =>
        rw [if_pos rfl,
          bracketFold_no_writer (jsSplit path '/') "*" (jsSplit pattern '/') 0 _ hstar, hv]
        rfl
      | false =>
        rw [if_neg (by simp : ¬ (false = true)), hv]
        rfl
    rcases Bool.or_eq_true_iff.mp hm' with hbeq | hstarts
    · have hpath : path = p := (string_beq_iff path p).mp hbeq
      subst hpath
      have hrem : jsSlice path (jsLength path) = "" := by
        show (⟨path.data.drop path.data.length⟩ : String) = ""
        rw [List.drop_length]
      have hval : (if jsStartsWith (jsSlice path (jsLength path)) "/" then
            setKey [] "*" (jsSlice (jsSlice path (jsLength path)) 1)
          else if (jsSlice path (jsLength path)) == "" then setKey [] "*" ""
          else []) = [("*", "")] := by
        rw [hrem]
        rfl
      rw [key "" hval]
      simp
    · obtain ⟨t, ht⟩ := (prefixOfChars_iff (jsConcat p "/").data path.data).mp hstarts
      have hslash : ("/" : String).data = ['/'] := rfl
      have hdata : path.data = p.data ++ '/' :: t := by
        rw [ht]
        simp [jsConcat, hslash]
      have hbeqf : (path == p) = false := by
        cases hb : (path == p) with
        | true =>
          exfalso
          have hpp : path = p := (string_beq_iff path p).mp hb
          have hlen := congrArg List.length hdata
          rw [hpp] at hlen
          simp [List.length_append] at hlen
        | false => rfl
      have hremdata : jsSlice path (jsLength p) = (⟨'/' :: t⟩ : String) := by
        show (⟨path.data.drop p.data.length⟩ : String) = (⟨'/' :: t⟩ : String)
        rw [hdata, List.drop_left]
      have hsw : jsStartsWith (⟨'/' :: t⟩ : String) "/" = true := rfl
      have hval : (if jsStartsWith (jsSlice path (jsLength p)) "/" then
            setKey [] "*" (jsSlice (jsSlice path (jsLength p)) 1)
          else if (jsSlice path (jsLength p)) == "" then setKey [] "*" ""
          else []) = [("*", (⟨t⟩ : String))] := by
        rw [hremdata, if_pos hsw]
        rfl
      have hfin : jsSlice path (jsLength p + 1) = (⟨t⟩ : String) := by
        show (⟨path.data.drop (p.data.length + 1)⟩ : String) = (⟨t⟩ : String)
        rw [hdata]
        have h5 : p.data ++ '/' :: t = (p.data ++ ['/']) ++ t := by simp
        have h6 : p.data.length + 1 = (p.data ++ ['/']).length := by simp
        rw [h5, h6, List.drop_left]
      rw [key (⟨t⟩ : String) hval, hbeqf]
      simp [hfin]

/-- Witness for C3: both general parts applied at the claim's own examples. -/
theorem extractParams_spec_witness :
    lookupKey (extractParams "/users/42" "/users/[id]" true none) (bracketInner "[id]") =
      some "42" ∧
    lookupKey (extractParams "/docs/a/b" "/docs" false (some "/docs")) "*" = some "a/b" := by
  constructor
  · have h := extractParams_spec.1 "/users/42" "/users/[id]" true none ["", "users"] "[id]" []
      (by decide) (by decide) (by decide) (by decide) (by decide) (by decide)
    exact h.trans (by decide)
  · have h := extractParams_spec.2.1 "/docs/a/b" "/docs" "/docs" (by decide) (by decide)
      (by decide)
    exact h.trans (by decide)

theorem mem_executePluginHook {T : Type} (plugins : List (MWPlugin T)) (hookName : String)
    (call : MWPlugin T → Option (Except String Unit)) (ev : MWEvent) :
    ev ∈ executePluginHook plugins hookName call →
    ∃ p ∈ plugins, ev = .hookRun p.name hookName ∨ ev = .hookError p.name hookName := by
  intro h
  simp only [executePluginHook, List.mem_flatten] at h
  obtain ⟨l, hl, hev⟩ := h
  simp only [List.mem_map] at hl
  obtain ⟨p, hp, rfl⟩ := hl
  refine ⟨p, hp, ?_⟩
  unfold hookSegment at hev
  cases hcall : call p with
  | none => simp [hcall] at hev
  | some r =>
    cases r with
    | ok u => rw [hcall] at hev; simpa using Or.inl (by simpa using hev)
    | error e =>
      rw [hcall] at hev
      simpa using hev

theorem ruleRun_not_mem_eph {T : Type} (plugins : List (MWPlugin T)) (hookName : String)
    (call : MWPlugin T → Option (Except String Unit)) (j : Nat) :
    MWEvent.ruleRun j ∉ executePluginHook plugins hookName call := by
  intro h
  obtain ⟨p, _, h | h⟩ := mem_executePluginHook plugins hookName call _ h <;> simp at h

theorem executePluginHook_append {T : Type} (xs ys : List (MWPlugin T)) (n : String)
    (call : MWPlugin T → Option (Except String Unit)) :
    executePluginHook (xs ++ ys) n call =
      executePluginHook xs n call ++ executePluginHook ys n call := by
  simp [executePluginHook]

theorem executePluginHook_cons {T : Type} (p : MWPlugin T) (ps : List (MWPlugin T)) (n : String)
    (call : MWPlugin T → Option (Except String Unit)) :
    executePluginHook (p :: ps) n call = hookSegment n call p ++ executePluginHook ps n call := by
  simp [executePluginHook]

theorem executePluginHook_drop_none {T : Type} {p : MWPlugin T}
    {call : MWPlugin T → Option (Except String Unit)} (h : call p = none)
    (xs ys : List (MWPlugin T)) (n : String) :
    executePluginHook (xs ++ p :: ys) n call = executePluginHook (xs ++ ys) n call := by
  rw [executePluginHook_append, executePluginHook_cons, executePluginHook_append]
  simp [hookSegment, h]

theorem handlePluginErrors_drop {T : Type} {p : MWPlugin T} (h : p.onError = none) :
    ∀ (xs ys : List (MWPlugin T)) (ctx : MWContext T) (e : String),
      handlePluginErrors (xs ++ p :: ys) ctx e = handlePluginErrors (xs ++ ys) ctx e := by
  intro xs
  induction xs with
  | nil => intro ys ctx e; simp [handlePluginErrors, h]
  | cons q qs ih =>
    intro ys ctx e
    cases hq : q.onError with
    | none => simp [handlePluginErrors, hq, ih]
    | some f =>
      cases hf : f ctx e with
      | ok r =>
        cases r with
        | none => simp [handlePluginErrors, hq, hf, ih]
        | some v => simp [handlePluginErrors, hq, hf]
      | error e2 => simp [handlePluginErrors, hq, hf, ih]

theorem runRules_drop_plugin {T : Type} {p : MWPlugin T} (hbr : p.beforeRule = none)
    (har : p.afterRule = none) (xs ys : List (MWPlugin T)) (ctx : MWContext T) :
    ∀ (rules : List (MWRule T)) (i : Nat),
      runRules (xs ++ p :: ys) ctx rules i = runRules (xs ++ ys) ctx rules i := by
  intro rules
  induction rules with
  | nil => intro i; rfl
  | cons r rs ih =>
    intro i
    cases hr : r ctx with
    | error e =>
      simp only [runRules, hr]
      rw [executePluginHook_drop_none (by simp [hbr]) xs ys "beforeRule"]
    | ok result =>
      cases result with
      | some resp =>
        simp only [runRules, hr]
        rw [executePluginHook_drop_none (by simp [hbr]) xs ys "beforeRule",
          executePluginHook_drop_none (by simp [har]) xs ys "afterRule"]
      | none =>
        simp only [runRules, hr]
        rw [executePluginHook_drop_none (by simp [hbr]) xs ys "beforeRule",
          executePluginHook_drop_none (by simp [har]) xs ys "afterRule", ih (i + 1)]

theorem runRules_append_none {T : Type} (plugins : List (MWPlugin T)) (ctx : MWContext T) :
    ∀ (pre rest : List (MWRule T)) (i : Nat), (∀ q ∈ pre, q ctx = .ok none) →
      (runRules plugins ctx (pre ++ rest) i).2 =
        (runRules plugins ctx rest (i + pre.length)).2 ∧
      (∀ j, MWEvent.ruleRun j ∈ (runRules plugins ctx (pre ++ rest) i).1 →
        j < i + pre.length ∨
          MWEvent.ruleRun j ∈ (runRules plugins ctx rest (i + pre.length)).1) := by
  intro pre
  induction pre with
  | nil =>
    intro rest i _
    constructor
    · simp
    · intro j hj
      right
      simpa using hj
  | cons q qs ih =>
    intro rest i h
    have hq : q ctx = .ok none := h q (by simp)
    have hrest : ∀ u ∈ qs, u ctx = .ok none := fun u hu => h u (by simp [hu])
    have harith : i + 1 + qs.length = i + (q :: qs).length := by simp; omega
    have hmain := ih rest (i + 1) hrest
    rw [harith] at hmain
    constructor
    · simp only [List.cons_append, runRules, hq]
      exact hmain.1
    · intro j hj
      simp only [List.cons_append, runRules, hq] at hj
      simp only [List.append_assoc, List.mem_append] at hj
      rcases hj with hj | hj
      · exact absurd hj (ruleRun_not_mem_eph plugins "beforeRule" _ j)
      rcases hj with hj | hj
      · left
        have : j = i := by simpa using hj
        subst this
        simp
      rcases hj with hj | hj
      · exact absurd hj (ruleRun_not_mem_eph plugins "afterRule" _ j)
      · rcases hmain.2 j hj with hlt | hmem
        · left; omega
        · right; exact hmem

theorem runRules_head_some {T : Type} (plugins : List (MWPlugin T)) (ctx : MWContext T)
    (r : MWRule T) (post : List (MWRule T)) (resp : MWResponse) (i : Nat)
    (hr : r ctx = .ok (some resp)) :
    (runRules plugins ctx (r :: post) i).2 = .ok (some resp) ∧
    (∀ j, MWEvent.ruleRun j ∈ (runRules plugins ctx (r :: post) i).1 → j = i) := by
  constructor
  · simp [runRules, hr]
  · intro j hj
    simp only [runRules, hr] at hj
    simp only [List.append_assoc, List.mem_append] at hj
    rcases hj with hj | hj
    · exact absurd hj (ruleRun_not_mem_eph plugins "beforeRule" _ j)
    rcases hj with hj | hj
    · simpa using hj
    · exact absurd hj (ruleRun_not_mem_eph plugins "afterRule" _ j)

theorem runRules_head_error {T : Type} (plugins : List (MWPlugin T)) (ctx : MWContext T)
    (r : MWRule T) (post : List (MWRule T)) (e : String) (i : Nat)
    (hr : r ctx = .error e) :
    (runRules plugins ctx (r :: post) i).2 = .error e := by
  simp [runRules, hr]

theorem runRules_all_none {T : Type} (plugins : List (MWPlugin T)) (ctx : MWContext T) :
    ∀ (rules : List (MWRule T)) (i : Nat), (∀ q ∈ rules, q ctx = .ok none) →
      (runRules plugins ctx rules i).2 = .ok none := by
  intro rules
  induction rules with
  | nil => intro i _; rfl
  | cons r rs ih =>
    intro i h
    have hr : r ctx = .ok none := h r (by simp)
    simp only [runRules, hr]
    exact ih (i + 1) (fun u hu => h u (by simp [hu]))

theorem ruleRun_not_mem_ephBR {T : Type} (ps : List (MWPlugin T)) (ctx : MWContext T) (j : Nat) :
    MWEvent.ruleRun j ∉ ephBeforeRequest ps ctx :=
  ruleRun_not_mem_eph ps "beforeRequest" _ j

theorem ruleRun_not_mem_ephAR {T : Type} (ps : List (MWPlugin T)) (ctx : MWContext T)
    (resp : MWResponse) (j : Nat) :
    MWEvent.ruleRun j ∉ ephAfterRequest ps ctx resp :=
  ruleRun_not_mem_eph ps "afterRequest" _ j

/-- C4: for a matched route the handler runs the rules in order and returns
the first non-null rule result immediately — no rule after the deciding rule
is ever invoked (every `ruleRun` index in the trace is at most the deciding
rule's index); if every rule returns null the handler returns the
pass-through response. -/
theorem rule_chain_short_circuit :
    (∀ (T : Type) (b : BuilderState T) (req : MWRequest) (route : RouteDef T) (d : Option T)
        (pre : List (MWRule T)) (r : MWRule T) (post : List (MWRule T)) (resp : MWResponse),
      findMatchingRoute b.routes req.pathname = some route →
      b.fetchUser req = .ok d →
      route.rules = pre ++ r :: post →
      (∀ q ∈ pre, q (ctxAtRules b req route d) = .ok none) →
      r (ctxAtRules b req route d) = .ok (some resp) →
      (buildHandler b req).2 = resp ∧
      (∀ j, MWEvent.ruleRun j ∈ (buildHandler b req).1 → j ≤ pre.length)) ∧
    (∀ (T : Type) (b : BuilderState T) (req : MWRequest) (route : RouteDef T) (d : Option T),
      findMatchingRoute b.routes req.pathname = some route →
      b.fetchUser req = .ok d →
      (∀ q ∈ route.rules, q (ctxAtRules b req route d) = .ok none) →
      (buildHandler b req).2 = .passThrough) := by
  constructor
  · intro T b req route d pre r post resp hfind hfetch hrules hpre hr
    have hsplit := runRules_append_none b.plugins (ctxAtRules b req route d) pre (r :: post) 0 hpre
    have hhead := runRules_head_some b.plugins (ctxAtRules b req route d) r post resp
      (0 + pre.length) hr
    have hrr2 : (runRules b.plugins (ctxAtRules b req route d) route.rules 0).2 =
        .ok (some resp) := by
      rw [hrules, hsplit.1, hhead.1]
    constructor
    · simp only [buildHandler, handleAfterBR, hfind, hfetch, hrr2]
    · intro j hj
      simp only [buildHandler, handleAfterBR, hfind, hfetch, hrr2] at hj
      rcases List.mem_append.mp hj with hj | hj
      · exact absurd hj (ruleRun_not_mem_ephBR b.plugins _ j)
      rcases List.mem_cons.mp hj with hj | hj
      · simp at hj
      rcases List.mem_cons.mp hj with hj | hj
      · simp at hj
      rcases List.mem_append.mp hj with hj | hj
      · rw [hrules] at hj
        rcases hsplit.2 j hj with hlt | hmem
        · omega
        · have := hhead.2 j hmem
          omega
      · exact absurd hj (ruleRun_not_mem_ephAR b.plugins _ _ j)
  · intro T b req route d hfind hfetch hall
    have hrr2 := runRules_all_none b.plugins (ctxAtRules b req route d) route.rules 0 hall
    simp only [buildHandler, handleAfterBR, hfind, hfetch, hrr2]

/-- Witness for C4 at the claim's concrete scenario `[R1 -> null,
R2 -> Response, R3]`: the result is R2's response and no rule of index
greater than 1 ever runs. -/
theorem rule_chain_short_circuit_witness :
    (buildHandler shortCircuitBuilder aReq).2 = MWResponse.custom "r2" ∧
    (∀ j, MWEvent.ruleRun j ∈ (buildHandler shortCircuitBuilder aReq).1 → j ≤ 1) :=
  rule_chain_short_circuit.1 Unit shortCircuitBuilder aReq
    (exactRouteDef [] "/a" shortCircuitRules) none
    [fun _ => .ok none] (fun _ => .ok (some (.custom "r2")))
    [fun _ => .ok (some (.custom "r3"))] (.custom "r2")
    rfl rfl rfl
    (by
      intro q hq
      rw [List.mem_singleton.mp hq])
    rfl

/-- C5: when an uncaught failure occurs during user fetch or rule execution
and no plugin's `onError` supplies a result, the handler applies the default
policy: pass-through when the request path matches a configured auth path
(exact match, or `startsWith` on the entry with its trailing `/*` removed),
otherwise a redirect to `/sign-in`. The claim's concrete instances (error on
`/api/x` with `/api/*` configured gives pass-through; with no matching auth
path, the sign-in redirect) are included. -/
theorem error_fallback_policy :
    (∀ (T : Type) (b : BuilderState T) (req : MWRequest) (route : RouteDef T) (e : String),
      findMatchingRoute b.routes req.pathname = some route →
      b.fetchUser req = .error e →
      handlePluginErrors b.plugins (ctxAtRules b req route none) e = none →
      (buildHandler b req).2 =
        (if b.authPaths.any (fun ap =>
            if jsEndsWith ap "/*" then jsStartsWith req.pathname (jsTakeAllBut ap 2)
            else req.pathname == ap)
         then MWResponse.passThrough else MWResponse.redirectTo "/sign-in" req.url)) ∧
    (∀ (T : Type) (b : BuilderState T) (req : MWRequest) (route : RouteDef T) (d : Option T)
        (pre : List (MWRule T)) (r : MWRule T) (post : List (MWRule T)) (e : String),
      findMatchingRoute b.routes req.pathname = some route →
      b.fetchUser req = .ok d →
      route.rules = pre ++ r :: post →
      (∀ q ∈ pre, q (ctxAtRules b req route d) = .ok none) →
      r (ctxAtRules b req route d) = .error e →
      handlePluginErrors b.plugins (ctxAtRules b req route d) e = none →
      (buildHandler b req).2 =
        (if b.authPaths.any (fun ap =>
            if jsEndsWith ap "/*" then jsStartsWith req.pathname (jsTakeAllBut ap 2)
            else req.pathname == ap)
         then MWResponse.passThrough else MWResponse.redirectTo "/sign-in" req.url)) ∧
    (buildHandler (apiErrorBuilder ["/api/*"]) apiReq).2 = MWResponse.passThrough ∧
    (buildHandler (apiErrorBuilder []) apiReq).2 =
      MWResponse.redirectTo "/sign-in" "http://localhost:3000/api/x" := by
  refine ⟨?_, ?_, by rfl, by rfl⟩
  · intro T b req route e hfind hfetch hpe
    simp only [buildHandler, handleAfterBR, hfind, hfetch, catchResult, hpe, isAuthPathCheck]
  · intro T b req route d pre r post e hfind hfetch hrules hpre hr hpe
    have hsplit := runRules_append_none b.plugins (ctxAtRules b req route d) pre (r :: post) 0 hpre
    have hhead := runRules_head_error b.plugins (ctxAtRules b req route d) r post e
      (0 + pre.length) hr
    have hrr2 : (runRules b.plugins (ctxAtRules b req route d) route.rules 0).2 = .error e := by
      rw [hrules, hsplit.1, hhead]
    simp only [buildHandler, handleAfterBR, hfind, hfetch, hrr2, catchResult, hpe,
      isAuthPathCheck]

/-- Witness for C5: a failing user fetch with no auth paths redirects to the
sign-in location. -/
theorem error_fallback_policy_witness :
    (buildHandler fetchFailBuilder xReq).2 =
      MWResponse.redirectTo "/sign-in" "http://localhost:3000/x" := by
  have h := error_fallback_policy.1 Unit fetchFailBuilder xReq (exactRouteDef [] "/x" []) "down"
    rfl rfl rfl
  simpa using h

theorem hookRun_hook_of_mem_eph {T : Type} {ps : List (MWPlugin T)} {hn : String}
    {call : MWPlugin T → Option (Except String Unit)} {m hk : String}
    (h : MWEvent.hookRun m hk ∈ executePluginHook ps hn call) : hk = hn := by
  obtain ⟨p, _, h | h⟩ := mem_executePluginHook ps hn call _ h
  · exact (MWEvent.hookRun.injEq .. ▸ congrArg id h : _) |>.2
  · simp at h

theorem resolveDone_mem_handleAfterBR {T : Type} (b : BuilderState T) (req : MWRequest) :
    MWEvent.resolveDone ((findMatchingRoute b.routes req.pathname).map (fun r => r.pattern)) ∈
      (handleAfterBR b req).1 := by
  unfold handleAfterBR
  cases hfind : findMatchingRoute b.routes req.pathname with
  | none => simp
  | some route =>
    cases hf : b.fetchUser req with
    | error e => simp
    | ok d =>
      cases hrr : (runRules b.plugins (ctxAtRules b req route d) route.rules 0).2 with
      | error e => simp [hrr]
      | ok result =>
        cases result with
        | some resp => simp [hrr]
        | none => simp [hrr]

theorem handleAfterBR_drop {T : Type} (routes : List (RouteDef T)) (auth : List String)
    (fetch : MWRequest → Except String (Option T)) (dm : List (String × String))
    (xs ys : List (MWPlugin T)) (p : MWPlugin T)
    (h1 : p.beforeRule = none) (h2 : p.afterRule = none) (h3 : p.afterRequest = none)
    (h4 : p.onError = none) (req : MWRequest) :
    handleAfterBR ⟨routes, auth, fetch, xs ++ p :: ys, dm⟩ req =
      handleAfterBR ⟨routes, auth, fetch, xs ++ ys, dm⟩ req := by
  simp only [handleAfterBR, ctxInitial, ctxAtRules]
  cases hfind : findMatchingRoute routes req.pathname with
  | none =>
    dsimp only
    simp only [ephAfterRequest]
    rw [executePluginHook_drop_none (by simp [h3]) xs ys "afterRequest"]
  | some route =>
    dsimp only
    cases hf : fetch req with
    | error e =>
      dsimp only
      simp only [catchResult]
      rw [handlePluginErrors_drop h4 xs ys]
    | ok d =>
      dsimp only
      rw [runRules_drop_plugin h1 h2 xs ys]
      cases hrr2 : (runRules (xs ++ ys)
          { data := d, path := req.pathname,
            params := extractParams req.pathname route.pattern route.isExact route.pfx,
            metadata := mergeMeta dm route.metadata } route.rules 0).2 with
      | error e =>
        dsimp only
        simp only [catchResult]
        rw [handlePluginErrors_drop h4 xs ys]
      | ok result =>
        cases result with
        | some resp =>
          dsimp only
          simp only [ephAfterRequest]
          rw [executePluginHook_drop_none (by simp [h3]) xs ys "afterRequest"]
        | none =>
          dsimp only
          simp only [ephAfterRequest]
          rw [executePluginHook_drop_none (by simp [h3]) xs ys "afterRequest"]

/-- C6: a lifecycle hook other than `onError` that throws is caught and
logged with the plugin's name and hook name, the remaining plugins' hooks
still run, and the pipeline is unaffected: with a plugin whose
`beforeRequest` hook throws, route resolution still happens, exactly the
same rules run, the `afterRequest` (and every non-`beforeRequest`) hook
trace is unchanged, and the handler's response is unchanged. -/
theorem plugin_hook_isolation :
    (∀ (T : Type) (xs : List (MWPlugin T)) (p : MWPlugin T) (ys : List (MWPlugin T))
        (hookName : String) (call : MWPlugin T → Option (Except String Unit)) (e : String),
      call p = some (.error e) →
      executePluginHook (xs ++ p :: ys) hookName call =
        executePluginHook xs hookName call ++
          ([.hookRun p.name hookName, .hookError p.name hookName] ++
            executePluginHook ys hookName call)) ∧
    (∀ (T : Type) (routes : List (RouteDef T)) (auth : List String)
        (fetch : MWRequest → Except String (Option T)) (dm : List (String × String))
        (xs ys : List (MWPlugin T)) (n e : String) (req : MWRequest),
      (buildHandler ⟨routes, auth, fetch, xs ++ throwingBRPlugin n e :: ys, dm⟩ req).2 =
        (buildHandler ⟨routes, auth, fetch, xs ++ ys, dm⟩ req).2 ∧
      MWEvent.hookError n "beforeRequest" ∈
        (buildHandler ⟨routes, auth, fetch, xs ++ throwingBRPlugin n e :: ys, dm⟩ req).1 ∧
      MWEvent.resolveDone ((findMatchingRoute routes req.pathname).map (fun r => r.pattern)) ∈
        (buildHandler ⟨routes, auth, fetch, xs ++ throwingBRPlugin n e :: ys, dm⟩ req).1 ∧
      (∀ j, MWEvent.ruleRun j ∈
          (buildHandler ⟨routes, auth, fetch, xs ++ throwingBRPlugin n e :: ys, dm⟩ req).1 ↔
        MWEvent.ruleRun j ∈ (buildHandler ⟨routes, auth, fetch, xs ++ ys, dm⟩ req).1) ∧
      (∀ (m hk : String), ¬ hk = "beforeRequest" →
        (MWEvent.hookRun m hk ∈
            (buildHandler ⟨routes, auth, fetch, xs ++ throwingBRPlugin n e :: ys, dm⟩ req).1 ↔
          MWEvent.hookRun m hk ∈
            (buildHandler ⟨routes, auth, fetch, xs ++ ys, dm⟩ req).1))) := by
  constructor
  · intro T xs p ys hookName call e hcall
    rw [executePluginHook_append, executePluginHook_cons]
    simp [hookSegment, hcall]
  · intro T routes auth fetch dm xs ys n e req
    have hdrop := handleAfterBR_drop routes auth fetch dm xs ys (throwingBRPlugin n e)
      rfl rfl rfl rfl req
    have htr1 : (buildHandler ⟨routes, auth, fetch, xs ++ throwingBRPlugin n e :: ys, dm⟩ req).1 =
        ephBeforeRequest (xs ++ throwingBRPlugin n e :: ys)
            (⟨none, req.pathname, [], dm⟩ : MWContext T) ++
          (handleAfterBR (⟨routes, auth, fetch, xs ++ ys, dm⟩ : BuilderState T) req).1 := by
      show ephBeforeRequest (xs ++ throwingBRPlugin n e :: ys)
            (⟨none, req.pathname, [], dm⟩ : MWContext T) ++
          (handleAfterBR (⟨routes, auth, fetch, xs ++ throwingBRPlugin n e :: ys, dm⟩ :
            BuilderState T) req).1 = _
      rw [hdrop]
    have htr0 : (buildHandler ⟨routes, auth, fetch, xs ++ ys, dm⟩ req).1 =
        ephBeforeRequest (xs ++ ys) (⟨none, req.pathname, [], dm⟩ : MWContext T) ++
          (handleAfterBR (⟨routes, auth, fetch, xs ++ ys, dm⟩ : BuilderState T) req).1 := rfl
    refine ⟨?_, ?_, ?_, ?_, ?_⟩
    · show (handleAfterBR (⟨routes, auth, fetch, xs ++ throwingBRPlugin n e :: ys, dm⟩ :
          BuilderState T) req).2 =
        (handleAfterBR (⟨routes, auth, fetch, xs ++ ys, dm⟩ : BuilderState T) req).2
      rw [hdrop]
    · rw [htr1]
      refine List.mem_append.mpr (Or.inl ?_)
      simp only [ephBeforeRequest]
      rw [executePluginHook_append, executePluginHook_cons]
      have hseg : hookSegment "beforeRequest"
          (fun p => p.beforeRequest.map
            (fun f => f (⟨none, req.pathname, [], dm⟩ : MWContext T)))
          (throwingBRPlugin n e) =
          [.hookRun n "beforeRequest", .hookError n "beforeRequest"] := rfl
      rw [hseg]
      simp
    · rw [htr1]
      refine List.mem_append.mpr (Or.inr ?_)
      exact resolveDone_mem_handleAfterBR (⟨routes, auth, fetch, xs ++ ys, dm⟩ : BuilderState T)
        req
    · intro j
      have h1 := ruleRun_not_mem_ephBR (xs ++ throwingBRPlugin n e :: ys)
        (⟨none, req.pathname, [], dm⟩ : MWContext T) j
      have h0 := ruleRun_not_mem_ephBR (xs ++ ys)
        (⟨none, req.pathname, [], dm⟩ : MWContext T) j
      rw [htr1, htr0]
      simp [List.mem_append, h1, h0]
    · intro m hk hne
      have h1 : MWEvent.hookRun m hk ∉ ephBeforeRequest (xs ++ throwingBRPlugin n e :: ys)
          (⟨none, req.pathname, [], dm⟩ : MWContext T) :=
        fun hmem => hne (hookRun_hook_of_mem_eph hmem)
      have h0 : MWEvent.hookRun m hk ∉ ephBeforeRequest (xs ++ ys)
          (⟨none, req.pathname, [], dm⟩ : MWContext T) :=
        fun hmem => hne (hookRun_hook_of_mem_eph hmem)
      rw [htr1, htr0]
      simp [List.mem_append, h1, h0]

/-- Witness for C6: a single plugin whose `beforeRequest` throws produces
exactly the run-then-caught-error trace for that hook. -/
theorem plugin_hook_isolation_witness :
    executePluginHook [throwingBRPlugin "log" "boom"] "beforeRequest"
        (fun q => q.beforeRequest.map
          (fun f => f (ctxInitial (apiErrorBuilder []) apiReq))) =
      [.hookRun "log" "beforeRequest", .hookError "log" "beforeRequest"] := by
  have h := plugin_hook_isolation.1 Unit [] (throwingBRPlugin "log" "boom") [] "beforeRequest"
    ((fun q => q.beforeRequest.map (fun f => f (ctxInitial (apiErrorBuilder []) apiReq))) :
      MWPlugin Unit → Option (Except String Unit))
    "boom" (by rfl)
  simpa using h
